import Mathlib

/-!
Verification of the autolive segmentation and export pipeline.

This file is a shallow embedding of the pure algorithmic content of
src/autolive/silence_detect.py and src/autolive/track_split.py.
Millisecond positions are Python ints, modelled as ℤ; loudness values
(dBFS floats) are modelled as ℚ, with negative infinity modelled as
the `none` arm of `Option ℚ`.  External effectful collaborators
(pydub decoding/slicing, the ffmpeg encoder, the mutagen tag writer)
are abstracted as oracles; every piece of control flow and arithmetic
is transcribed from the Python source.
-/

/-- A span is a half-open millisecond interval (start, end), Python ints. -/
abbrev Span : Type := ℤ × ℤ

/-- Loop of `_merge_adjacent_ranges` (silence_detect.py lines 171-182):
`acc` is the mutable `merged[-1]`, the list argument is the remaining input.
When the gap `current_start - last_end` is at most `gapMs` the accumulator's
end is replaced by the current end; otherwise the accumulator is emitted and
the current range becomes the new accumulator. -/
def mergeAdjAux (gapMs : ℤ) (acc : Span) : List Span → List Span
  | [] => [acc]
  | (currentStart, currentEnd) :: rest =>
    if currentStart - acc.2 ≤ gapMs then
      mergeAdjAux gapMs (acc.1, currentEnd) rest
    else
      acc :: mergeAdjAux gapMs (currentStart, currentEnd) rest

/-- `_merge_adjacent_ranges` (silence_detect.py lines 166-182). -/
def mergeAdjacentRanges (ranges : List Span) (gapMs : ℤ) : List Span :=
  match ranges with
  | [] => []
  | r :: rest => mergeAdjAux gapMs r rest

/-- Loop of `_merge_to_target_lengths` (silence_detect.py lines 194-217):
`cur` is the running accumulator `(current_start, current_end)`.  The Python
body also computes `next_length`, which is never used, and is therefore not
carried here. -/
def mergeToTargetAux (minLengthMs maxLengthMs : ℤ) (cur : Span) :
    List Span → List Span
  | [] => [cur]
  | (nextStart, nextEnd) :: rest =>
    if cur.2 - cur.1 < minLengthMs then
      if nextEnd - cur.1 > maxLengthMs then
        cur :: mergeToTargetAux minLengthMs maxLengthMs (nextStart, nextEnd) rest
      else
        mergeToTargetAux minLengthMs maxLengthMs (cur.1, nextEnd) rest
    else
      cur :: mergeToTargetAux minLengthMs maxLengthMs (nextStart, nextEnd) rest

/-- `_merge_to_target_lengths` (silence_detect.py lines 185-219). -/
def mergeToTargetLengths (ranges : List Span) (minLengthMs maxLengthMs : ℤ) :
    List Span :=
  match ranges with
  | [] => []
  | r :: rest => mergeToTargetAux minLengthMs maxLengthMs r rest

/-- The `keep_silence_ms` padding step of `detect_song_spans`
(silence_detect.py lines 122-128): when positive, each start is lowered by
`keepSilenceMs` (floored at 0) and each end raised by it (capped at the
total audio duration). -/
def padRanges (ranges : List Span) (keepSilenceMs totalDurationMs : ℤ) :
    List Span :=
  if 0 < keepSilenceMs then
    ranges.map (fun r =>
      (max 0 (r.1 - keepSilenceMs), min totalDurationMs (r.2 + keepSilenceMs)))
  else ranges

/-- The two merging passes run back to back, exactly as `detect_song_spans`
calls them (silence_detect.py lines 137-145); this is the spec's
SpanMerger without its final floor filter. -/
def spanMergerMerge (ranges : List Span) (gapMs minLengthMs maxLengthMs : ℤ) :
    List Span :=
  mergeToTargetLengths (mergeAdjacentRanges ranges gapMs) minLengthMs maxLengthMs

/-- The pure tail of `detect_song_spans` (silence_detect.py lines 122-163),
starting from the raw non-silent ranges returned by the external
`detect_nonsilent` probe: padding, the empty-input early return, the two
merging passes and the hard-coded 45000 ms short-fragment filter. -/
def detectSongSpansPure (nonsilent : List Span)
    (totalDurationMs keepSilenceMs targetMinMs targetMaxMs gapMs : ℤ) :
    List Span :=
  if (padRanges nonsilent keepSilenceMs totalDurationMs).isEmpty then []
  else
    (spanMergerMerge (padRanges nonsilent keepSilenceMs totalDurationMs) gapMs
        targetMinMs targetMaxMs).filter (fun r => decide (45000 ≤ r.2 - r.1))

/-- Abstract model of a decoded pydub AudioSegment: its length in
milliseconds together with a loudness oracle mapping a slice (given by its
start and its length, both in ms) to its dBFS value; `none` encodes a dBFS
of negative infinity (digital silence). -/
structure AudioSeg where
  lengthMs : ℕ
  dbfs : ℕ → ℕ → Option ℚ

/-- The sampling loop of `estimate_silence_threshold` (silence_detect.py
lines 42-55): the leading `analysis_sample_sec` seconds (clamped to the
audio length) are cut into consecutive `analysis_seg_ms` windows, and the
dBFS of every nonempty window that is not negative infinity is collected,
in order. -/
def segmentDbsOf (audio : AudioSeg) (analysisSampleSec analysisSegMs : ℕ) :
    List ℚ :=
  (List.range' 0
      ((min (analysisSampleSec * 1000) audio.lengthMs + analysisSegMs - 1)
        / analysisSegMs)
      analysisSegMs).filterMap
    (fun i =>
      if 0 < min analysisSegMs (min (analysisSampleSec * 1000) audio.lengthMs - i)
      then audio.dbfs i
        (min analysisSegMs (min (analysisSampleSec * 1000) audio.lengthMs - i))
      else none)

/-- `estimate_silence_threshold` (silence_detect.py lines 18-72): if no
informative window exists the fallback -40.0 is returned; otherwise the
collected window values are sorted ascending, the value at index
`int(count * bottom_percentile)` is the noise floor, and the threshold is
that floor plus `floor_headroom_db`. -/
def estimateSilenceThreshold (audio : AudioSeg)
    (analysisSampleSec analysisSegMs : ℕ)
    (bottomPercentile floorHeadroomDb : ℚ) : ℚ :=
  if (segmentDbsOf audio analysisSampleSec analysisSegMs).isEmpty then -40
  else
    (List.insertionSort (fun a b => a ≤ b)
        (segmentDbsOf audio analysisSampleSec analysisSegMs)).getD
      (Nat.floor
        (((segmentDbsOf audio analysisSampleSec analysisSegMs).length : ℚ)
          * bottomPercentile)) 0
    + floorHeadroomDb

/-- A two-window audio sample used to exercise the estimator: the window at
0 measures -10 dBFS, every other window -20 dBFS. -/
def sampleAudio : AudioSeg :=
  ⟨100, fun i _ => if i = 0 then some (-10) else some (-20)⟩

/-- Python truthiness of an `Optional[str]` parameter: `None` and the empty
string are falsy. -/
def strTruthy : Option String → Bool
  | none => false
  | some s => !(s == "")

/-- Python `f-string` formatting with `:02d` for a nonnegative integer:
zero-padded to at least two digits. -/
def pad2 (n : ℕ) : String :=
  if n < 10 then "0" ++ Nat.repr n else Nat.repr n

/-- The tag bag written by `_add_flac_tags` (track_split.py lines 161-212),
field by field; `none` means the corresponding FLAC tag is not written. -/
structure FlacTags where
  tracknumber : String
  title : String
  artist : Option String
  albumartist : Option String
  album : Option String
  date : Option String
  lengthTag : Option String
  genre : String
deriving DecidableEq

/-- Tag computation of `_add_flac_tags` (track_split.py lines 171-205):
TRACKNUMBER is `str(track_num)`, TITLE is `Track NN` (NN zero-padded),
optionally prefixed, ARTIST/ALBUMARTIST come from the band, ALBUM joins
venue and ISO date with a separator, DATE echoes the ISO date, LENGTH is
whole seconds when the duration is positive, GENRE is fixed. -/
def addFlacTags (trackNum : ℕ) (titlePfx band venue showDateIso : Option String)
    (durationMs : ℤ) : FlacTags :=
  { tracknumber := Nat.repr trackNum
    title :=
      if strTruthy titlePfx then
        titlePfx.getD "" ++ " - " ++ ("Track " ++ pad2 trackNum)
      else "Track " ++ pad2 trackNum
    artist := if strTruthy band then band else none
    albumartist := if strTruthy band then band else none
    album :=
      if ((if strTruthy venue then [venue.getD ""] else []) ++
          (if strTruthy showDateIso then [showDateIso.getD ""] else [])).isEmpty
      then none
      else some (String.intercalate " - "
        ((if strTruthy venue then [venue.getD ""] else []) ++
         (if strTruthy showDateIso then [showDateIso.getD ""] else [])))
    date := if strTruthy showDateIso then showDateIso else none
    lengthTag := if 0 < durationMs then some (toString (durationMs / 1000))
      else none
    genre := "Live Recording" }

/-- Per-track success oracles abstracting the effectful collaborators of
`split_tracks`: whether pydub extraction plus fade shaping raises for the
track at a given index, whether the ffmpeg FLAC encode raises, and whether
the mutagen tag write inside `_add_flac_tags` succeeds. -/
structure ExportEnv where
  extractOk : ℕ → Bool
  encodeOk : ℕ → Bool
  tagOk : ℕ → Bool

/-- One entry of the `output_files` list of `split_tracks`, enriched with
the position the loop used and the tags that ended up on the file (`none`
when the tag write failed: `_add_flac_tags` swallows its own exceptions, so
the file still exists but carries no tags). -/
structure ExportedTrack where
  index : ℕ
  path : String
  tags : Option FlacTags
deriving DecidableEq

/-- The per-span loop of `split_tracks` (track_split.py lines 85-132):
`enumerate(song_spans, start_index)` supplies the index; the whole body is
wrapped in `try/except ... continue`, so a track whose extraction or encode
raises is skipped; `_add_flac_tags` catches its own failures, so a tag-write
failure still appends the path. -/
def splitTracksAux (env : ExportEnv) (totalDurationMs keepHeadMs keepTailMs : ℤ)
    (titlePfx band venue showDateIso : Option String) :
    ℕ → List Span → List ExportedTrack
  | _, [] => []
  | i, (startMs, endMs) :: rest =>
    if env.extractOk i && env.encodeOk i then
      { index := i
        path := "track_" ++ pad2 i ++ ".flac"
        tags :=
          if env.tagOk i then
            some (addFlacTags i titlePfx band venue showDateIso
              (max 0 (min totalDurationMs (endMs + keepTailMs)
                - max 0 (startMs - keepHeadMs))))
          else none } ::
        splitTracksAux env totalDurationMs keepHeadMs keepTailMs titlePfx band
          venue showDateIso (i + 1) rest
    else
      splitTracksAux env totalDurationMs keepHeadMs keepTailMs titlePfx band
        venue showDateIso (i + 1) rest

/-- `split_tracks` (track_split.py lines 38-132), with audio content and
filesystem effects abstracted by `ExportEnv`. -/
def splitTracks (env : ExportEnv) (spans : List Span) (totalDurationMs : ℤ)
    (keepHeadMs keepTailMs : ℤ) (titlePfx band venue showDateIso : Option String)
    (startIndex : ℕ) : List ExportedTrack :=
  splitTracksAux env totalDurationMs keepHeadMs keepTailMs titlePfx band venue
    showDateIso startIndex spans

/-- Number of spans whose processing raises inside the `split_tracks` loop
(extraction or encode failure), counted from a given start index. -/
def failCount (env : ExportEnv) : ℕ → List Span → ℕ
  | _, [] => 0
  | i, _ :: rest =>
    (if env.extractOk i && env.encodeOk i then 0 else 1) + failCount env (i + 1) rest

/-- An export environment in which every per-track operation succeeds. -/
def envAllOk : ExportEnv := ⟨fun _ => true, fun _ => true, fun _ => true⟩

/-- An export environment in which only the tag write of the track at index
1 fails; extraction and encode always succeed. -/
def envTagFailAt1 : ExportEnv :=
  ⟨fun _ => true, fun _ => true, fun i => decide (i ≠ 1)⟩

/-- An export environment in which only the encode of the track at index 2
fails. -/
def envEncodeFailAt2 : ExportEnv :=
  ⟨fun _ => true, fun i => decide (i ≠ 2), fun _ => true⟩

/-! ## Theorems about the merging passes -/

/-- The target-length accumulator is never empty: the final accumulator is
always emitted. -/
theorem mergeToTargetAux_ne_nil (minLengthMs maxLengthMs : ℤ) :
    ∀ (rest : List Span) (cur : Span),
      mergeToTargetAux minLengthMs maxLengthMs cur rest ≠ [] := by
  intro rest
  induction rest with
  | nil => intro cur; simp [mergeToTargetAux]
  | cons head tail ih =>
    intro cur
    obtain ⟨nxs, nxe⟩ := head
    simp only [mergeToTargetAux]
    split
    · split
      · simp
      · exact ih _
    · simp

/-- C1: the target-length pass walks merged spans in order; an accumulator
already at least `targetMinMs` long is closed and the next span starts a new
accumulator; a still-short accumulator absorbs the next span (its end moving
to the next span's end) unless the combined length `nextEnd - curStart`
would exceed `targetMaxMs`, in which case the short accumulator is closed
as-is; and the final accumulator is always emitted once input is
exhausted. -/
theorem mergeToTargetLengths_step (minLengthMs maxLengthMs : ℤ) (cur : Span)
    (nextStart nextEnd : ℤ) (rest : List Span) :
    (minLengthMs ≤ cur.2 - cur.1 →
      mergeToTargetAux minLengthMs maxLengthMs cur ((nextStart, nextEnd) :: rest)
        = cur :: mergeToTargetAux minLengthMs maxLengthMs (nextStart, nextEnd) rest) ∧
    (cur.2 - cur.1 < minLengthMs → maxLengthMs < nextEnd - cur.1 →
      mergeToTargetAux minLengthMs maxLengthMs cur ((nextStart, nextEnd) :: rest)
        = cur :: mergeToTargetAux minLengthMs maxLengthMs (nextStart, nextEnd) rest) ∧
    (cur.2 - cur.1 < minLengthMs → nextEnd - cur.1 ≤ maxLengthMs →
      mergeToTargetAux minLengthMs maxLengthMs cur ((nextStart, nextEnd) :: rest)
        = mergeToTargetAux minLengthMs maxLengthMs (cur.1, nextEnd) rest) ∧
    mergeToTargetAux minLengthMs maxLengthMs cur [] = [cur] ∧
    mergeToTargetAux minLengthMs maxLengthMs cur ((nextStart, nextEnd) :: rest) ≠ [] ∧
    mergeToTargetLengths (cur :: (nextStart, nextEnd) :: rest) minLengthMs maxLengthMs
      = mergeToTargetAux minLengthMs maxLengthMs cur ((nextStart, nextEnd) :: rest) := by
  refine ⟨?_, ?_, ?_, rfl, mergeToTargetAux_ne_nil _ _ _ _, rfl⟩
  · intro h
    simp only [mergeToTargetAux, if_neg (not_lt.mpr h)]
  · intro h1 h2
    simp only [mergeToTargetAux, if_pos h1, if_pos h2]
  · intro h1 h2
    simp only [mergeToTargetAux, if_pos h1, if_neg (not_lt.mpr h2)]

/-- Concrete instantiations of the three target-length step cases: a
sufficient accumulator is cut greedily, a short accumulator merges when the
combination stays under the max, and a short accumulator is closed short
when merging would blow the max. -/
theorem mergeToTargetLengths_step_witness :
    mergeToTargetAux 120000 600000 ((0 : ℤ), (130000 : ℤ))
        [((131000 : ℤ), (200000 : ℤ))]
      = [((0 : ℤ), (130000 : ℤ)), ((131000 : ℤ), (200000 : ℤ))] ∧
    mergeToTargetAux 120000 600000 ((0 : ℤ), (50000 : ℤ))
        [((51000 : ℤ), (100000 : ℤ))]
      = [((0 : ℤ), (100000 : ℤ))] ∧
    mergeToTargetAux 120000 600000 ((0 : ℤ), (50000 : ℤ))
        [((50500 : ℤ), (700000 : ℤ))]
      = [((0 : ℤ), (50000 : ℤ)), ((50500 : ℤ), (700000 : ℤ))] := by
  refine ⟨?_, ?_, ?_⟩
  · rw [(mergeToTargetLengths_step 120000 600000 ((0 : ℤ), (130000 : ℤ))
        131000 200000 []).1 (by decide),
      (mergeToTargetLengths_step 120000 600000 ((131000 : ℤ), (200000 : ℤ))
        0 0 []).2.2.2.1]
  · rw [(mergeToTargetLengths_step 120000 600000 ((0 : ℤ), (50000 : ℤ))
        51000 100000 []).2.2.1 (by decide) (by decide),
      (mergeToTargetLengths_step 120000 600000 ((0 : ℤ), (100000 : ℤ))
        0 0 []).2.2.2.1]
  · rw [(mergeToTargetLengths_step 120000 600000 ((0 : ℤ), (50000 : ℤ))
        50500 700000 []).2.1 (by decide) (by decide),
      (mergeToTargetLengths_step 120000 600000 ((50500 : ℤ), (700000 : ℤ))
        0 0 []).2.2.2.1]

/-- C2: the adjacency pass walks spans in order, merging the accumulator
with the next span exactly when `nextStart - currentEnd ≤ adjacentGapMs`, by
moving the accumulator's end to the next span's end, and otherwise closing
the accumulator; on the raw spans [(0,50000),(50500,100000)] with gap 1000
it returns the single span (0,100000). -/
theorem mergeAdjacentRanges_step (gapMs : ℤ) (acc : Span)
    (currentStart currentEnd : ℤ) (rest : List Span) :
    (currentStart - acc.2 ≤ gapMs →
      mergeAdjAux gapMs acc ((currentStart, currentEnd) :: rest)
        = mergeAdjAux gapMs (acc.1, currentEnd) rest) ∧
    (gapMs < currentStart - acc.2 →
      mergeAdjAux gapMs acc ((currentStart, currentEnd) :: rest)
        = acc :: mergeAdjAux gapMs (currentStart, currentEnd) rest) ∧
    mergeAdjAux gapMs acc [] = [acc] ∧
    mergeAdjacentRanges (acc :: (currentStart, currentEnd) :: rest) gapMs
      = mergeAdjAux gapMs acc ((currentStart, currentEnd) :: rest) ∧
    mergeAdjacentRanges [((0 : ℤ), (50000 : ℤ)), ((50500 : ℤ), (100000 : ℤ))] 1000
      = [((0 : ℤ), (100000 : ℤ))] := by
  refine ⟨?_, ?_, rfl, rfl, by decide⟩
  · intro h
    simp only [mergeAdjAux, if_pos h]
  · intro h
    simp only [mergeAdjAux, if_neg (not_le.mpr h)]

/-- Concrete instantiations of both adjacency step cases. -/
theorem mergeAdjacentRanges_step_witness :
    mergeAdjAux 1000 ((0 : ℤ), (50000 : ℤ)) [((50500 : ℤ), (100000 : ℤ))]
      = [((0 : ℤ), (100000 : ℤ))] ∧
    mergeAdjAux 1000 ((0 : ℤ), (50000 : ℤ)) [((52000 : ℤ), (100000 : ℤ))]
      = [((0 : ℤ), (50000 : ℤ)), ((52000 : ℤ), (100000 : ℤ))] := by
  constructor
  · rw [(mergeAdjacentRanges_step 1000 ((0 : ℤ), (50000 : ℤ))
        50500 100000 []).1 (by decide),
      (mergeAdjacentRanges_step 1000 ((0 : ℤ), (100000 : ℤ)) 0 0 []).2.2.1]
  · rw [(mergeAdjacentRanges_step 1000 ((0 : ℤ), (50000 : ℤ))
        52000 100000 []).2.1 (by decide),
      (mergeAdjacentRanges_step 1000 ((52000 : ℤ), (100000 : ℤ)) 0 0 []).2.2.1]

/-- C4: the final output of `detect_song_spans` is exactly the result of the
two merging passes filtered by the hard-coded 45000 ms floor - the filter
runs after the target-length pass and triggers no re-merging - and hence
every surviving span is at least 45000 ms long. -/
theorem detectSongSpansPure_floor (nonsilent : List Span)
    (totalDurationMs keepSilenceMs targetMinMs targetMaxMs gapMs : ℤ) :
    detectSongSpansPure nonsilent totalDurationMs keepSilenceMs targetMinMs
        targetMaxMs gapMs
      = (spanMergerMerge (padRanges nonsilent keepSilenceMs totalDurationMs)
          gapMs targetMinMs targetMaxMs).filter
            (fun r => decide (45000 ≤ r.2 - r.1)) ∧
    ∀ r ∈ detectSongSpansPure nonsilent totalDurationMs keepSilenceMs
        targetMinMs targetMaxMs gapMs, 45000 ≤ r.2 - r.1 := by
  have hmain : detectSongSpansPure nonsilent totalDurationMs keepSilenceMs
      targetMinMs targetMaxMs gapMs
    = (spanMergerMerge (padRanges nonsilent keepSilenceMs totalDurationMs)
        gapMs targetMinMs targetMaxMs).filter
          (fun r => decide (45000 ≤ r.2 - r.1)) := by
    rw [detectSongSpansPure]
    by_cases h : (padRanges nonsilent keepSilenceMs totalDurationMs).isEmpty
    · rw [if_pos h, List.isEmpty_iff.mp h]
      rfl
    · rw [if_neg h]
  refine ⟨hmain, ?_⟩
  intro r hr
  rw [hmain] at hr
  simpa using (List.mem_filter.mp hr).2

/-- Concrete run of the floor filter: a single padded span survives and its
length clears the 45000 ms floor. -/
theorem detectSongSpansPure_floor_witness :
    detectSongSpansPure [((0 : ℤ), (100000 : ℤ))] 200000 900 120000 600000 1000
      = [((0 : ℤ), (100900 : ℤ))] ∧
    (45000 : ℤ) ≤ (100900 : ℤ) - (0 : ℤ) :=
  ⟨by decide,
    (detectSongSpansPure_floor [((0 : ℤ), (100000 : ℤ))] 200000 900 120000
      600000 1000).2 ((0 : ℤ), (100900 : ℤ)) (by decide)⟩

/-- C9: when no informative analysis window exists (no windows at all, or
every window's loudness is negative infinity), the estimator returns the
fixed conservative fallback threshold -40.0 dB instead of failing. -/
theorem estimateSilenceThreshold_fallback (audio : AudioSeg)
    (analysisSampleSec analysisSegMs : ℕ)
    (bottomPercentile floorHeadroomDb : ℚ)
    (hempty : segmentDbsOf audio analysisSampleSec analysisSegMs = []) :
    estimateSilenceThreshold audio analysisSampleSec analysisSegMs
      bottomPercentile floorHeadroomDb = -40 := by
  rw [estimateSilenceThreshold, hempty]
  rfl

/-- A fully silent recording (every window at negative infinity) yields the
-40.0 fallback. -/
theorem estimateSilenceThreshold_fallback_witness :
    segmentDbsOf ⟨100, fun _ _ => none⟩ 1 50 = [] ∧
    estimateSilenceThreshold ⟨100, fun _ _ => none⟩ 1 50 (1 / 4) (7 / 2)
      = -40 :=
  ⟨by decide,
    estimateSilenceThreshold_fallback ⟨100, fun _ _ => none⟩ 1 50 (1 / 4)
      (7 / 2) (by decide)⟩

/-! ## Theorems about the threshold estimator -/

/-- C8: with at least one informative window and a valid bottom percentile,
the estimator returns the entry at index floor(count * bottomPercentile) of
the ascending-sorted list of informative window loudness values, plus the
headroom; the index is always in bounds. -/
theorem estimateSilenceThreshold_noise_floor (audio : AudioSeg)
    (analysisSampleSec analysisSegMs : ℕ)
    (bottomPercentile floorHeadroomDb : ℚ) (l : List ℚ)
    (hne : segmentDbsOf audio analysisSampleSec analysisSegMs ≠ [])
    (hp0 : 0 ≤ bottomPercentile) (hp1 : bottomPercentile < 1)
    (hperm : l.Perm (segmentDbsOf audio analysisSampleSec analysisSegMs))
    (hsort : l.Sorted (· ≤ ·)) :
    Nat.floor ((l.length : ℚ) * bottomPercentile) < l.length ∧
    estimateSilenceThreshold audio analysisSampleSec analysisSegMs
        bottomPercentile floorHeadroomDb
      = l.getD (Nat.floor ((l.length : ℚ) * bottomPercentile)) 0
        + floorHeadroomDb := by
  have hlpos : 0 < l.length := by
    rcases l with _ | ⟨a, l2⟩
    · exact absurd (List.Perm.eq_nil hperm.symm) hne
    · simp
  have hfloor : Nat.floor ((l.length : ℚ) * bottomPercentile) < l.length := by
    rw [Nat.floor_lt (by positivity)]
    simpa using
      mul_lt_of_lt_one_right (show (0 : ℚ) < l.length by exact_mod_cast hlpos)
        hp1
  have hsorted_eq : l = List.insertionSort (fun a b => a ≤ b)
      (segmentDbsOf audio analysisSampleSec analysisSegMs) := by
    refine List.eq_of_perm_of_sorted
      (hperm.trans (List.perm_insertionSort _ _).symm) hsort
      (List.sorted_insertionSort _ _)
  have hlen : l.length
      = (segmentDbsOf audio analysisSampleSec analysisSegMs).length :=
    hperm.length_eq
  refine ⟨hfloor, ?_⟩
  rw [estimateSilenceThreshold, if_neg (by simpa [List.isEmpty_iff] using hne),
    ← hsorted_eq, ← hlen]

/-- Concrete run of the noise-floor path: two informative windows at -10 and
-20 dBFS, bottom percentile 1/4, headroom 7/2, noise floor -20. -/
theorem estimateSilenceThreshold_noise_floor_witness :
    segmentDbsOf sampleAudio 1 50 ≠ [] ∧
    (0 : ℚ) ≤ 1 / 4 ∧ (1 / 4 : ℚ) < 1 ∧
    List.Perm [(-20 : ℚ), -10] (segmentDbsOf sampleAudio 1 50) ∧
    List.Sorted (fun a b => a ≤ b) [(-20 : ℚ), -10] ∧
    Nat.floor ((([(-20 : ℚ), -10] : List ℚ).length : ℚ) * (1 / 4))
      < ([(-20 : ℚ), -10] : List ℚ).length ∧
    estimateSilenceThreshold sampleAudio 1 50 (1 / 4) (7 / 2)
      = ([(-20 : ℚ), -10] : List ℚ).getD
          (Nat.floor ((([(-20 : ℚ), -10] : List ℚ).length : ℚ) * (1 / 4))) 0
        + 7 / 2 := by
  have h := estimateSilenceThreshold_noise_floor sampleAudio 1 50 (1 / 4)
    (7 / 2) [(-20 : ℚ), -10] (by decide) (by norm_num) (by norm_num)
    (by decide) (by decide)
  exact ⟨by decide, by norm_num, by norm_num, by decide, by decide, h.1, h.2⟩

/-- C7 fails on the code: on a loud recording whose every analysis window
measures -1 dBFS, the estimator returns -1 + 3.5 = 2.5 dB, a positive value,
although its own docstring promises a negative result. -/
theorem estimateSilenceThreshold_positive_output :
    estimateSilenceThreshold ⟨50, fun _ _ => some (-1)⟩ 60 50 (1 / 4) (7 / 2)
      = 5 / 2 ∧
    (0 : ℚ) < 5 / 2 := by
  have hseg : segmentDbsOf ⟨50, fun _ _ => some (-1)⟩ 60 50 = [-1] := by
    decide
  constructor
  · rw [estimateSilenceThreshold, hseg]
    norm_num [List.insertionSort, List.orderedInsert, List.getD]
  · norm_num

/-! ## Theorems about the track exporter -/

/-- Every track produced while scanning the tail of the span list is also
produced when one more span is put in front. -/
theorem splitTracksAux_subset_cons (env : ExportEnv)
    (totalDurationMs keepHeadMs keepTailMs : ℤ)
    (titlePfx band venue showDateIso : Option String) (i : ℕ) (sp : Span)
    (rest : List Span) :
    ∀ t ∈ splitTracksAux env totalDurationMs keepHeadMs keepTailMs titlePfx
        band venue showDateIso (i + 1) rest,
      t ∈ splitTracksAux env totalDurationMs keepHeadMs keepTailMs titlePfx
        band venue showDateIso i (sp :: rest) := by
  intro t ht
  obtain ⟨s0, e0⟩ := sp
  simp only [splitTracksAux]
  split
  · exact List.mem_cons_of_mem _ ht
  · exact ht

/-- Every emitted track has an index at least the starting index, and its
extraction and encode both succeeded. -/
theorem splitTracksAux_mem (env : ExportEnv)
    (totalDurationMs keepHeadMs keepTailMs : ℤ)
    (titlePfx band venue showDateIso : Option String) :
    ∀ (spans : List Span) (i : ℕ) (t : ExportedTrack),
      t ∈ splitTracksAux env totalDurationMs keepHeadMs keepTailMs titlePfx
        band venue showDateIso i spans →
      i ≤ t.index ∧ env.extractOk t.index = true ∧
        env.encodeOk t.index = true := by
  intro spans
  induction spans with
  | nil => intro i t ht; simp [splitTracksAux] at ht
  | cons sp rest ih =>
    intro i t ht
    obtain ⟨s0, e0⟩ := sp
    simp only [splitTracksAux] at ht
    by_cases hcond : (env.extractOk i && env.encodeOk i) = true
    · rw [if_pos hcond] at ht
      rcases List.mem_cons.mp ht with h1 | h2
      · subst h1
        have h3 := hcond
        simp only [Bool.and_eq_true] at h3
        exact ⟨le_refl _, h3.1, h3.2⟩
      · obtain ⟨hle, hx, he⟩ := ih (i + 1) t h2
        exact ⟨le_trans (Nat.le_succ i) hle, hx, he⟩
    · rw [if_neg hcond] at ht
      obtain ⟨hle, hx, he⟩ := ih (i + 1) t ht
      exact ⟨le_trans (Nat.le_succ i) hle, hx, he⟩

/-- Output indices are strictly increasing: span order is preserved. -/
theorem splitTracksAux_pairwise (env : ExportEnv)
    (totalDurationMs keepHeadMs keepTailMs : ℤ)
    (titlePfx band venue showDateIso : Option String) :
    ∀ (spans : List Span) (i : ℕ),
      List.Pairwise (fun a b => a.index < b.index)
        (splitTracksAux env totalDurationMs keepHeadMs keepTailMs titlePfx
          band venue showDateIso i spans) := by
  intro spans
  induction spans with
  | nil => intro i; simp [splitTracksAux]
  | cons sp rest ih =>
    intro i
    obtain ⟨s0, e0⟩ := sp
    simp only [splitTracksAux]
    split
    · refine List.Pairwise.cons ?_ (ih (i + 1))
      intro t ht
      have hle := (splitTracksAux_mem env totalDurationMs keepHeadMs
        keepTailMs titlePfx band venue showDateIso rest (i + 1) t ht).1
      exact lt_of_lt_of_le (Nat.lt_succ_self i) hle
    · exact ih (i + 1)

/-- The number of emitted tracks plus the number of extraction/encode
failures equals the number of spans. -/
theorem splitTracksAux_length (env : ExportEnv)
    (totalDurationMs keepHeadMs keepTailMs : ℤ)
    (titlePfx band venue showDateIso : Option String) :
    ∀ (spans : List Span) (i : ℕ),
      (splitTracksAux env totalDurationMs keepHeadMs keepTailMs titlePfx band
          venue showDateIso i spans).length + failCount env i spans
        = spans.length := by
  intro spans
  induction spans with
  | nil => intro i; simp [splitTracksAux, failCount]
  | cons sp rest ih =>
    intro i
    obtain ⟨s0, e0⟩ := sp
    simp only [splitTracksAux, failCount]
    by_cases hcond : (env.extractOk i && env.encodeOk i) = true
    · rw [if_pos hcond, if_pos hcond]
      have := ih (i + 1)
      simp only [List.length_cons]
      omega
    · rw [if_neg hcond, if_neg hcond]
      have := ih (i + 1)
      simp only [List.length_cons]
      omega

/-- C5 fails as stated: a tag-write failure is caught inside
`_add_flac_tags`, not by the loop, so the track is still returned.  With
two spans and exactly one per-track failure (the tag write of track 1),
`split_tracks` returns 2 paths, not N - 1 = 1. -/
theorem splitTracks_tag_failure_counterexample :
    (splitTracks envTagFailAt1 [((0 : ℤ), (60000 : ℤ)), ((70000 : ℤ), (130000 : ℤ))]
        200000 1000 1500 none none none none 1).length = 2 ∧
    (2 : ℕ) ≠ 2 - 1 := by
  constructor
  · decide
  · decide

/-- C5 amended: extraction and encode failures are caught by the loop and
skip the span; the returned tracks are exactly those whose extraction and
encode succeeded, in span order (strictly increasing indices), and when
exactly one span fails that way, exactly N - 1 tracks are returned. -/
theorem splitTracks_skips_failed (env : ExportEnv) (spans : List Span)
    (totalDurationMs keepHeadMs keepTailMs : ℤ)
    (titlePfx band venue showDateIso : Option String) (startIndex : ℕ)
    (hone : failCount env startIndex spans = 1) :
    (splitTracks env spans totalDurationMs keepHeadMs keepTailMs titlePfx band
        venue showDateIso startIndex).length = spans.length - 1 ∧
    List.Pairwise (fun a b => a.index < b.index)
      (splitTracks env spans totalDurationMs keepHeadMs keepTailMs titlePfx
        band venue showDateIso startIndex) ∧
    ∀ t ∈ splitTracks env spans totalDurationMs keepHeadMs keepTailMs titlePfx
        band venue showDateIso startIndex,
      env.extractOk t.index = true ∧ env.encodeOk t.index = true := by
  refine ⟨?_,
    splitTracksAux_pairwise env totalDurationMs keepHeadMs keepTailMs titlePfx
      band venue showDateIso spans startIndex, ?_⟩
  · have h := splitTracksAux_length env totalDurationMs keepHeadMs keepTailMs
      titlePfx band venue showDateIso spans startIndex
    rw [hone] at h
    have h2 : (splitTracks env spans totalDurationMs keepHeadMs keepTailMs
        titlePfx band venue showDateIso startIndex).length + 1
      = spans.length := h
    omega
  · intro t ht
    exact (splitTracksAux_mem env totalDurationMs keepHeadMs keepTailMs
      titlePfx band venue showDateIso spans startIndex t ht).2

/-- Three spans with exactly one encode failure (index 2) yield exactly two
tracks. -/
theorem splitTracks_skips_failed_witness :
    failCount envEncodeFailAt2 1
      [((0 : ℤ), (60000 : ℤ)), ((70000 : ℤ), (130000 : ℤ)),
        ((140000 : ℤ), (200000 : ℤ))] = 1 ∧
    (splitTracks envEncodeFailAt2
        [((0 : ℤ), (60000 : ℤ)), ((70000 : ℤ), (130000 : ℤ)),
          ((140000 : ℤ), (200000 : ℤ))]
        200000 1000 1500 none none none none 1).length = 3 - 1 :=
  ⟨by decide,
    (splitTracks_skips_failed envEncodeFailAt2
      [((0 : ℤ), (60000 : ℤ)), ((70000 : ℤ), (130000 : ℤ)),
        ((140000 : ℤ), (200000 : ℤ))]
      200000 1000 1500 none none none none 1 (by decide)).1⟩

/-- C6 fails as stated: the TRACKNUMBER tag is written as `str(track_num)`,
with no zero-padding.  For the first track (index 1) the tag value is "1",
a single digit. -/
theorem splitTracks_tracknumber_counterexample :
    (splitTracks envAllOk [((0 : ℤ), (60000 : ℤ))] 200000 1000 1500 none none
        none none 1).map (fun t => t.tags.map FlacTags.tracknumber)
      = [some "1"] ∧
    ("1" : String).length < 2 := by
  constructor
  · decide
  · decide

/-- C6 amended: the span at 0-based position k of the original span set,
when its extraction, encode and tag write all succeed, is exported with
index startIndex + k - regardless of failures of other spans - its
TRACKNUMBER tag is the unpadded decimal `str(startIndex + k)`, and the
zero-padded form appears in the file name. -/
theorem splitTracks_tracknumber (env : ExportEnv)
    (totalDurationMs keepHeadMs keepTailMs : ℤ)
    (titlePfx band venue showDateIso : Option String) :
    ∀ (spans : List Span) (i k : ℕ), k < spans.length →
      env.extractOk (i + k) = true → env.encodeOk (i + k) = true →
      env.tagOk (i + k) = true →
      ∃ t ∈ splitTracksAux env totalDurationMs keepHeadMs keepTailMs titlePfx
          band venue showDateIso i spans,
        t.index = i + k ∧
        t.path = "track_" ++ pad2 (i + k) ++ ".flac" ∧
        ∃ tg, t.tags = some tg ∧ tg.tracknumber = Nat.repr (i + k) := by
  intro spans
  induction spans with
  | nil => intro i k hk; simp at hk
  | cons sp rest ih =>
    intro i k hk hex hen htag
    obtain ⟨s0, e0⟩ := sp
    cases k with
    | zero =>
      simp only [Nat.add_zero] at hex hen htag ⊢
      refine ⟨⟨i, "track_" ++ pad2 i ++ ".flac",
        some (addFlacTags i titlePfx band venue showDateIso
          (max 0 (min totalDurationMs (e0 + keepTailMs)
            - max 0 (s0 - keepHeadMs))))⟩, ?_, rfl, rfl, _, rfl, rfl⟩
      simp only [splitTracksAux, hex, hen, Bool.and_self, if_true, htag]
      exact List.mem_cons_self _ _
    | succ k2 =>
      have hk2 : k2 < rest.length := by
        simpa using Nat.lt_of_succ_lt_succ hk
      have heq : i + (k2 + 1) = (i + 1) + k2 := by omega
      rw [heq] at hex hen htag ⊢
      obtain ⟨t, ht, hprops⟩ := ih (i + 1) k2 hk2 hex hen htag
      exact ⟨t, splitTracksAux_subset_cons env totalDurationMs keepHeadMs
        keepTailMs titlePfx band venue showDateIso i (s0, e0) rest t ht,
        hprops⟩

/-- With the encode of index 2 failing, the span at position k = 2 (index 3)
is still exported as track 3 with TRACKNUMBER "3" and file track_03.flac. -/
theorem splitTracks_tracknumber_witness :
    (2 < ([((0 : ℤ), (60000 : ℤ)), ((70000 : ℤ), (130000 : ℤ)),
        ((140000 : ℤ), (200000 : ℤ))] : List Span).length) ∧
    envEncodeFailAt2.extractOk (1 + 2) = true ∧
    envEncodeFailAt2.encodeOk (1 + 2) = true ∧
    envEncodeFailAt2.tagOk (1 + 2) = true ∧
    ∃ t ∈ splitTracksAux envEncodeFailAt2 200000 1000 1500 none none none none
        1 [((0 : ℤ), (60000 : ℤ)), ((70000 : ℤ), (130000 : ℤ)),
          ((140000 : ℤ), (200000 : ℤ))],
      t.index = 1 + 2 ∧
      t.path = "track_" ++ pad2 (1 + 2) ++ ".flac" ∧
      ∃ tg, t.tags = some tg ∧ tg.tracknumber = Nat.repr (1 + 2) :=
  ⟨by decide, by decide, by decide, by decide,
    splitTracks_tracknumber envEncodeFailAt2 200000 1000 1500 none none none
      none [((0 : ℤ), (60000 : ℤ)), ((70000 : ℤ), (130000 : ℤ)),
        ((140000 : ℤ), (200000 : ℤ))] 1 2 (by decide) (by decide) (by decide)
      (by decide)⟩

/-! ## Invariants of the merging passes -/

/-- Core invariant of the adjacency loop: starting from a well-formed
accumulator and a remaining input whose starts and ends are both
nondecreasing (padding-induced overlap allowed), the output starts at the
accumulator's start, every output span is well-formed, consecutive output
spans are separated by more than the gap, and every input span is contained
in some output span. -/
theorem mergeAdjAux_spec (gapMs : ℤ) :
    ∀ (rest : List Span) (acc : Span),
      acc.1 < acc.2 →
      (∀ r ∈ rest, r.1 < r.2) →
      List.Chain' (fun a b => a.1 ≤ b.1 ∧ a.2 ≤ b.2) (acc :: rest) →
      (∃ e out1, mergeAdjAux gapMs acc rest = (acc.1, e) :: out1) ∧
      (∀ r ∈ mergeAdjAux gapMs acc rest, r.1 < r.2) ∧
      List.Chain' (fun a b => a.2 + gapMs < b.1) (mergeAdjAux gapMs acc rest) ∧
      (∀ r ∈ acc :: rest,
        ∃ q ∈ mergeAdjAux gapMs acc rest, q.1 ≤ r.1 ∧ r.2 ≤ q.2) := by
  intro rest
  induction rest with
  | nil =>
    intro acc hacc _ _
    refine ⟨⟨acc.2, [], by simp [mergeAdjAux]⟩, ?_, ?_, ?_⟩
    · intro r hr
      simp [mergeAdjAux] at hr
      subst hr
      exact hacc
    · simp [mergeAdjAux]
    · intro r hr
      simp at hr
      subst hr
      exact ⟨r, by simp [mergeAdjAux], le_refl _, le_refl _⟩
  | cons hd tl ih =>
    intro acc hacc hwf hchain
    obtain ⟨cs, ce⟩ := hd
    have hcs_ce : (cs : ℤ) < ce := hwf (cs, ce) (List.mem_cons_self _ _)
    have hR := (List.chain'_cons.mp hchain).1
    have hchain_tl : List.Chain' (fun a b => a.1 ≤ b.1 ∧ a.2 ≤ b.2)
        ((cs, ce) :: tl) := (List.chain'_cons.mp hchain).2
    have hwf_tl : ∀ r ∈ tl, r.1 < r.2 :=
      fun r hr => hwf r (List.mem_cons_of_mem _ hr)
    simp only [mergeAdjAux]
    by_cases hmerge : cs - acc.2 ≤ gapMs
    · rw [if_pos hmerge]
      have hacc2 : ((acc.1, ce) : Span).1 < ((acc.1, ce) : Span).2 :=
        lt_of_le_of_lt hR.1 hcs_ce
      have hchain2 : List.Chain' (fun a b => a.1 ≤ b.1 ∧ a.2 ≤ b.2)
          ((acc.1, ce) :: tl) := by
        cases tl with
        | nil => simp
        | cons t2 tl2 =>
          have h2 := (List.chain'_cons.mp hchain_tl).1
          exact List.chain'_cons.mpr
            ⟨⟨le_trans hR.1 h2.1, h2.2⟩, (List.chain'_cons.mp hchain_tl).2⟩
      obtain ⟨hshape, hwfo, hchaino, hcov⟩ := ih (acc.1, ce) hacc2 hwf_tl hchain2
      refine ⟨hshape, hwfo, hchaino, ?_⟩
      intro r hr
      rcases List.mem_cons.mp hr with h1 | hr2
      · obtain ⟨q, hq, hq1, hq2⟩ := hcov (acc.1, ce) (List.mem_cons_self _ _)
        subst h1
        exact ⟨q, hq, hq1, le_trans hR.2 hq2⟩
      · rcases List.mem_cons.mp hr2 with h2 | hr3
        · obtain ⟨q, hq, hq1, hq2⟩ := hcov (acc.1, ce) (List.mem_cons_self _ _)
          subst h2
          exact ⟨q, hq, le_trans hq1 hR.1, hq2⟩
        · exact hcov r (List.mem_cons_of_mem _ hr3)
    · rw [if_neg hmerge]
      have hlt : acc.2 + gapMs < cs := by
        have := not_le.mp hmerge
        linarith
      obtain ⟨⟨e, out1, hshape⟩, hwfo, hchaino, hcov⟩ :=
        ih (cs, ce) hcs_ce hwf_tl hchain_tl
      refine ⟨⟨acc.2, mergeAdjAux gapMs (cs, ce) tl, rfl⟩, ?_, ?_, ?_⟩
      · intro r hr
        rcases List.mem_cons.mp hr with h1 | hr2
        · subst h1; exact hacc
        · exact hwfo r hr2
      · rw [hshape]
        rw [hshape] at hchaino
        exact List.chain'_cons.mpr ⟨hlt, hchaino⟩
      · intro r hr
        rcases List.mem_cons.mp hr with h1 | hr2
        · subst h1
          exact ⟨r, List.mem_cons_self _ _, le_refl _, le_refl _⟩
        · obtain ⟨q, hq, hq1, hq2⟩ := hcov r hr2
          exact ⟨q, List.mem_cons_of_mem _ hq, hq1, hq2⟩

/-- C10: on spans with nondecreasing starts and nondecreasing ends (the
shape symmetric padding produces, overlap allowed), the adjacency pass
returns well-formed, non-overlapping spans whose union contains every input
span. -/
theorem mergeAdjacentRanges_wf (gapMs : ℤ) (ranges : List Span)
    (hgap : 0 ≤ gapMs)
    (hwf : ∀ r ∈ ranges, r.1 < r.2)
    (hmono : List.Chain' (fun a b => a.1 ≤ b.1 ∧ a.2 ≤ b.2) ranges) :
    (∀ r ∈ mergeAdjacentRanges ranges gapMs, r.1 < r.2) ∧
    List.Chain' (fun a b => a.2 ≤ b.1) (mergeAdjacentRanges ranges gapMs) ∧
    ∀ r ∈ ranges,
      ∃ q ∈ mergeAdjacentRanges ranges gapMs, q.1 ≤ r.1 ∧ r.2 ≤ q.2 := by
  cases ranges with
  | nil => exact ⟨by simp [mergeAdjacentRanges], by simp [mergeAdjacentRanges],
      by simp⟩
  | cons a tl =>
    obtain ⟨_, hwfo, hchaino, hcov⟩ :=
      mergeAdjAux_spec gapMs tl a (hwf a (List.mem_cons_self _ _))
        (fun r hr => hwf r (List.mem_cons_of_mem _ hr)) hmono
    refine ⟨hwfo, ?_, hcov⟩
    exact List.Chain'.imp
      (fun x y hxy =>
        le_of_lt (lt_of_le_of_lt (le_add_of_nonneg_right hgap) hxy))
      hchaino

/-- Two overlapping padded spans are merged into one well-formed covering
span. -/
theorem mergeAdjacentRanges_wf_witness :
    ((0 : ℤ) ≤ 1000) ∧
    (∀ r ∈ ([((0 : ℤ), (50000 : ℤ)), ((49000 : ℤ), (100000 : ℤ))] : List Span),
      r.1 < r.2) ∧
    List.Chain' (fun a b => a.1 ≤ b.1 ∧ a.2 ≤ b.2)
      [((0 : ℤ), (50000 : ℤ)), ((49000 : ℤ), (100000 : ℤ))] ∧
    (∀ r ∈ mergeAdjacentRanges
        [((0 : ℤ), (50000 : ℤ)), ((49000 : ℤ), (100000 : ℤ))] 1000,
      r.1 < r.2) ∧
    List.Chain' (fun a b => a.2 ≤ b.1)
      (mergeAdjacentRanges
        [((0 : ℤ), (50000 : ℤ)), ((49000 : ℤ), (100000 : ℤ))] 1000) ∧
    ∀ r ∈ ([((0 : ℤ), (50000 : ℤ)), ((49000 : ℤ), (100000 : ℤ))] : List Span),
      ∃ q ∈ mergeAdjacentRanges
        [((0 : ℤ), (50000 : ℤ)), ((49000 : ℤ), (100000 : ℤ))] 1000,
        q.1 ≤ r.1 ∧ r.2 ≤ q.2 := by
  have hchain : List.Chain' (fun a b => a.1 ≤ b.1 ∧ a.2 ≤ b.2)
      [((0 : ℤ), (50000 : ℤ)), ((49000 : ℤ), (100000 : ℤ))] :=
    List.chain'_pair.mpr (by decide)
  have h := mergeAdjacentRanges_wf 1000
    [((0 : ℤ), (50000 : ℤ)), ((49000 : ℤ), (100000 : ℤ))]
    (by decide) (by decide) hchain
  exact ⟨by decide, by decide, hchain, h.1, h.2.1, h.2.2⟩

/-- The target-length loop preserves well-formedness and the
more-than-gap separation invariant, and its first output span starts where
the accumulator starts. -/
theorem mergeToTargetAux_chain (minLengthMs maxLengthMs gapMs : ℤ)
    (hgap : 0 ≤ gapMs) :
    ∀ (rest : List Span) (cur : Span),
      cur.1 < cur.2 →
      (∀ r ∈ rest, r.1 < r.2) →
      List.Chain' (fun a b => a.2 + gapMs < b.1) (cur :: rest) →
      (∃ e out1, mergeToTargetAux minLengthMs maxLengthMs cur rest
        = (cur.1, e) :: out1) ∧
      (∀ r ∈ mergeToTargetAux minLengthMs maxLengthMs cur rest, r.1 < r.2) ∧
      List.Chain' (fun a b => a.2 + gapMs < b.1)
        (mergeToTargetAux minLengthMs maxLengthMs cur rest) := by
  intro rest
  induction rest with
  | nil =>
    intro cur hcur _ _
    refine ⟨⟨cur.2, [], by simp [mergeToTargetAux]⟩, ?_, by simp [mergeToTargetAux]⟩
    intro r hr
    simp [mergeToTargetAux] at hr
    subst hr
    exact hcur
  | cons hd tl ih =>
    intro cur hcur hwf hchain
    obtain ⟨ns, nxe⟩ := hd
    have hlt : cur.2 + gapMs < ns := (List.chain'_cons.mp hchain).1
    have hchain_tl : List.Chain' (fun a b => a.2 + gapMs < b.1)
        ((ns, nxe) :: tl) := (List.chain'_cons.mp hchain).2
    have hns_ne : (ns : ℤ) < nxe := hwf (ns, nxe) (List.mem_cons_self _ _)
    have hwf_tl : ∀ r ∈ tl, r.1 < r.2 :=
      fun r hr => hwf r (List.mem_cons_of_mem _ hr)
    simp only [mergeToTargetAux]
    by_cases h1 : cur.2 - cur.1 < minLengthMs
    · rw [if_pos h1]
      by_cases h2 : nxe - cur.1 > maxLengthMs
      · rw [if_pos h2]
        obtain ⟨⟨e, out1, hshape⟩, hwfo, hchaino⟩ :=
          ih (ns, nxe) hns_ne hwf_tl hchain_tl
        refine ⟨⟨cur.2, mergeToTargetAux minLengthMs maxLengthMs (ns, nxe) tl,
          rfl⟩, ?_, ?_⟩
        · intro r hr
          rcases List.mem_cons.mp hr with hr1 | hr2
          · subst hr1; exact hcur
          · exact hwfo r hr2
        · rw [hshape]
          rw [hshape] at hchaino
          exact List.chain'_cons.mpr ⟨hlt, hchaino⟩
      · rw [if_neg h2]
        have hcur2 : ((cur.1, nxe) : Span).1 < ((cur.1, nxe) : Span).2 := by
          have hg : cur.2 ≤ cur.2 + gapMs := le_add_of_nonneg_right hgap
          show cur.1 < nxe
          linarith
        have hchain2 : List.Chain' (fun a b => a.2 + gapMs < b.1)
            ((cur.1, nxe) :: tl) := by
          cases tl with
          | nil => simp
          | cons t2 tl2 =>
            exact List.chain'_cons.mpr ⟨(List.chain'_cons.mp hchain_tl).1,
              (List.chain'_cons.mp hchain_tl).2⟩
        obtain ⟨⟨e, out1, hshape⟩, hwfo, hchaino⟩ :=
          ih (cur.1, nxe) hcur2 hwf_tl hchain2
        exact ⟨⟨e, out1, hshape⟩, hwfo, hchaino⟩
    · rw [if_neg h1]
      obtain ⟨⟨e, out1, hshape⟩, hwfo, hchaino⟩ :=
        ih (ns, nxe) hns_ne hwf_tl hchain_tl
      refine ⟨⟨cur.2, mergeToTargetAux minLengthMs maxLengthMs (ns, nxe) tl,
        rfl⟩, ?_, ?_⟩
      · intro r hr
        rcases List.mem_cons.mp hr with hr1 | hr2
        · subst hr1; exact hcur
        · exact hwfo r hr2
      · rw [hshape]
        rw [hshape] at hchaino
        exact List.chain'_cons.mpr ⟨hlt, hchaino⟩

/-- Lifts a pointwise implication that may use a membership property to a
chain implication. -/
theorem chain'_of_chain'_of_mem {α : Type} {P : α → Prop} {S T : α → α → Prop}
    (h : ∀ a b, P a → P b → S a b → T a b) :
    ∀ l : List α, (∀ r ∈ l, P r) → List.Chain' S l → List.Chain' T l := by
  intro l
  induction l with
  | nil => intro _ _; simp
  | cons a tl ih =>
    intro hP hch
    cases tl with
    | nil => simp
    | cons b tl2 =>
      refine List.chain'_cons.mpr
        ⟨h a b (hP a (List.mem_cons_self _ _))
            (hP b (List.mem_cons_of_mem _ (List.mem_cons_self _ _)))
            (List.chain'_cons.mp hch).1,
          ih (fun r hr => hP r (List.mem_cons_of_mem _ hr))
            (List.chain'_cons.mp hch).2⟩

/-- C3: on any valid input (well-formed, non-overlapping, ascending raw
spans), the merger - adjacency pass followed by target-length pass -
produces well-formed, non-overlapping, ascending spans, and every gap
between consecutive output spans strictly exceeds the adjacency gap. -/
theorem spanMergerMerge_no_overlap (ranges : List Span)
    (gapMs minLengthMs maxLengthMs : ℤ) (hgap : 0 ≤ gapMs)
    (hwf : ∀ r ∈ ranges, r.1 < r.2)
    (hsep : List.Chain' (fun a b => a.2 ≤ b.1) ranges) :
    (∀ r ∈ spanMergerMerge ranges gapMs minLengthMs maxLengthMs, r.1 < r.2) ∧
    List.Chain' (fun a b => a.2 ≤ b.1)
      (spanMergerMerge ranges gapMs minLengthMs maxLengthMs) ∧
    List.Chain' (fun a b => a.1 < b.1)
      (spanMergerMerge ranges gapMs minLengthMs maxLengthMs) ∧
    List.Chain' (fun a b => a.2 + gapMs < b.1)
      (spanMergerMerge ranges gapMs minLengthMs maxLengthMs) := by
  have hmono : List.Chain' (fun a b => a.1 ≤ b.1 ∧ a.2 ≤ b.2) ranges :=
    chain'_of_chain'_of_mem
      (fun a b ha hb hab => ⟨le_of_lt (lt_of_lt_of_le ha hab),
        le_of_lt (lt_of_le_of_lt hab hb)⟩)
      ranges hwf hsep
  have hmain : (∀ r ∈ spanMergerMerge ranges gapMs minLengthMs maxLengthMs,
      r.1 < r.2) ∧
      List.Chain' (fun a b => a.2 + gapMs < b.1)
        (spanMergerMerge ranges gapMs minLengthMs maxLengthMs) := by
    cases ranges with
    | nil =>
      exact ⟨by simp [spanMergerMerge, mergeAdjacentRanges, mergeToTargetLengths],
        by simp [spanMergerMerge, mergeAdjacentRanges, mergeToTargetLengths]⟩
    | cons a tl =>
      obtain ⟨⟨e, out1, hshape⟩, hwfo, hchaino, _⟩ :=
        mergeAdjAux_spec gapMs tl a (hwf a (List.mem_cons_self _ _))
          (fun r hr => hwf r (List.mem_cons_of_mem _ hr)) hmono
      have hstep : spanMergerMerge (a :: tl) gapMs minLengthMs maxLengthMs
          = mergeToTargetAux minLengthMs maxLengthMs (a.1, e) out1 := by
        show mergeToTargetLengths (mergeAdjAux gapMs a tl) minLengthMs
          maxLengthMs = _
        rw [hshape]
        rfl
      rw [hshape] at hwfo hchaino
      obtain ⟨_, hwfo2, hchaino2⟩ :=
        mergeToTargetAux_chain minLengthMs maxLengthMs gapMs hgap out1 (a.1, e)
          (hwfo (a.1, e) (List.mem_cons_self _ _))
          (fun r hr => hwfo r (List.mem_cons_of_mem _ hr)) hchaino
      rw [hstep]
      exact ⟨hwfo2, hchaino2⟩
  refine ⟨hmain.1, ?_, ?_, hmain.2⟩
  · exact List.Chain'.imp
      (fun x y hxy =>
        le_of_lt (lt_of_le_of_lt (le_add_of_nonneg_right hgap) hxy))
      hmain.2
  · refine chain'_of_chain'_of_mem
      (fun x y hx hy hxy => ?_) _ hmain.1 hmain.2
    have hg : x.2 ≤ x.2 + gapMs := le_add_of_nonneg_right hgap
    linarith

/-- Two separated raw spans keep all invariants through both passes. -/
theorem spanMergerMerge_no_overlap_witness :
    ((0 : ℤ) ≤ 1000) ∧
    (∀ r ∈ ([((0 : ℤ), (50000 : ℤ)), ((52000 : ℤ), (100000 : ℤ))] : List Span),
      r.1 < r.2) ∧
    List.Chain' (fun a b => a.2 ≤ b.1)
      [((0 : ℤ), (50000 : ℤ)), ((52000 : ℤ), (100000 : ℤ))] ∧
    (∀ r ∈ spanMergerMerge [((0 : ℤ), (50000 : ℤ)), ((52000 : ℤ), (100000 : ℤ))]
        1000 120000 600000, r.1 < r.2) ∧
    List.Chain' (fun a b => a.2 + 1000 < b.1)
      (spanMergerMerge [((0 : ℤ), (50000 : ℤ)), ((52000 : ℤ), (100000 : ℤ))]
        1000 120000 600000) := by
  have hsep : List.Chain' (fun a b => a.2 ≤ b.1)
      [((0 : ℤ), (50000 : ℤ)), ((52000 : ℤ), (100000 : ℤ))] :=
    List.chain'_pair.mpr (by decide)
  have h := spanMergerMerge_no_overlap
    [((0 : ℤ), (50000 : ℤ)), ((52000 : ℤ), (100000 : ℤ))] 1000 120000 600000
    (by decide) (by decide) hsep
  exact ⟨by decide, by decide, hsep, h.1, h.2.2.2⟩
